import Mathlib

/-!
A shallow embedding of the CardGuard credit-card validator.

Strings of the C++ sources are modelled as `List Char`.  The functions
`normalize_input`, `detect_issuer`, `luhn_check`, `calculate_entropy`,
`repetition_check_optimized` and `validate_card` embed `src/validator.cpp`;
`getDigit`, `sumOddDigits` and `sumEvenDigits` embed `main.cpp`.  The C++
`double` entropy is modelled over the reals; all other code is executable.
-/

namespace CardGuard

/-- The fixed message `normalize_input` returns when the input contains a
character that is not a decimal digit (`validator.cpp`, line 15). -/
def invalidMessage : List Char := "Invalid credit card number".toList

/-- `normalize_input` from `validator.cpp`: the loop returns the fixed
message at the first character failing `isdigit`; when every character is a
digit the original input is returned unchanged. -/
def normalize_input (input : List Char) : List Char :=
  if input.all Char.isDigit then input else invalidMessage

/-- The 256-entry lookup table of `detect_issuer`: every entry is
"UNKNOWN" except the indices of the characters `4` and `5`.  The index is
the character code. -/
def issuerTable (i : Nat) : String :=
  if i = Char.toNat '4' then "VISA"
  else if i = Char.toNat '5' then "MASTERCARD"
  else "UNKNOWN"

/-- `detect_issuer` from `validator.cpp`: index the table with the code of
the first character, or with 0 when the input is empty. -/
def detect_issuer (number : List Char) : String :=
  issuerTable (match number with
    | [] => 0
    | c :: _ => c.toNat)

/-- The reverse-iterator loop of `luhn_check`: `dd` is the
`double_digit` flag, `sum` the accumulator; each character contributes its
digit value, doubled (and reduced by 9 when above 9) when the flag is set,
and the flag toggles at every step. -/
def luhn_loop : List Char → Bool → Int → Int
  | [], _, sum => sum
  | c :: rest, dd, sum =>
    let digit : Int := (c.toNat : Int) - 48
    let digit : Int :=
      if dd then (if digit * 2 > 9 then digit * 2 - 9 else digit * 2)
      else digit
    luhn_loop rest (!dd) (sum + digit)

/-- `luhn_check` from `validator.cpp`: run the loop over the characters
from last to first, flag initially false, and test the sum against mod 10. -/
def luhn_check (number : List Char) : Bool :=
  luhn_loop number.reverse false 0 % 10 == 0

/-- One iteration of the entropy loop of `calculate_entropy`: the term
`-p * log2 p` contributed by the frequency-map entry of the character `k`,
with `p = count / length`. -/
noncomputable def entropyTerm (number : List Char) (k : Char) : ℝ :=
  let v : ℕ := number.count k
  let p : ℝ := (v : ℝ) / (number.length : ℝ)
  (-p) * Real.logb 2 p

/-- `calculate_entropy` from `validator.cpp`: the frequency map holds one
entry per distinct character with its count; the loop over the map adds
`-p * log2 p` for each entry. -/
noncomputable def calculate_entropy (number : List Char) : ℝ :=
  (number.dedup.map (entropyTerm number)).sum

/-- `repetition_check_optimized` from `validator.cpp`: for every pattern
length from 1 to half the string and every start position with
`i + 2 * len <= size`, compare the two adjacent windows; return false as
soon as two are equal, true when none are. -/
def repetition_check_optimized (number : List Char) : Bool :=
  (List.range (number.length / 2)).all (fun l =>
    (List.range (number.length + 1 - 2 * (l + 1))).all (fun i =>
      let len := l + 1
      let first_part := (number.drop i).take len
      let second_part := (number.drop (i + len)).take len
      !(first_part == second_part)))

/-- `CardResult` from `include/validator.h`.  The four analysis fields are
`Option`s: `none` models the field never being assigned (the short-circuit
return on the length gate); `valid` is assigned on every path. -/
structure CardResult where
  valid : Bool
  luhn_pass : Option Bool
  entropy : Option ℝ
  repetition_pass : Option Bool
  issuer : Option String

/-- `validate_card` from `validator.cpp`: normalize, stop with
`valid = false` when the length is outside 13..19, otherwise run the four
stages and combine them — full-confidence branch when Luhn, entropy and
repetition all pass, low-confidence branch when only Luhn passes, invalid
otherwise. -/
noncomputable def validate_card (input : List Char) : CardResult :=
  let normalized := normalize_input input
  if normalized.length < 13 ∨ 19 < normalized.length then
    { valid := false, luhn_pass := none, entropy := none,
      repetition_pass := none, issuer := none }
  else
    let issuer := detect_issuer normalized
    let luhn := luhn_check normalized
    let entropy := calculate_entropy normalized
    let rep := repetition_check_optimized normalized
    let valid : Bool :=
      if luhn = true ∧ entropy ≥ 3.5 ∧ rep = true then true
      else if luhn = true then true
      else false
    { valid := valid, luhn_pass := some luhn, entropy := some entropy,
      repetition_pass := some rep, issuer := some issuer }

/-- `getDigit` from `main.cpp`: a one-digit number is returned unchanged, a
two-digit number is replaced by the sum of its two decimal digits. -/
def getDigit (number : Int) : Int :=
  if number < 10 then number
  else number % 10 + number / 10

/-- The loop of `sumOddDigits` seen from the right end: starting at the
last character, add `getDigit` of every second digit going left. -/
def sumOddAux : List Char → Int
  | [] => 0
  | [c] => getDigit ((c.toNat : Int) - 48)
  | c :: _ :: rest => getDigit ((c.toNat : Int) - 48) + sumOddAux rest

/-- `sumOddDigits` from `main.cpp`: indices size-1, size-3, ... of the
string, i.e. every second element of the reversed string starting at its
head. -/
def sumOddDigits (cardNumber : List Char) : Int :=
  sumOddAux cardNumber.reverse

/-- The loop of `sumEvenDigits` seen from the right end: starting at the
given character, double the digit, reduce with `getDigit`, and step two
positions left. -/
def sumEvenAux : List Char → Int
  | [] => 0
  | [c] => getDigit (((c.toNat : Int) - 48) * 2)
  | c :: _ :: rest => getDigit (((c.toNat : Int) - 48) * 2) + sumEvenAux rest

/-- `sumEvenDigits` from `main.cpp`: indices size-2, size-4, ... of the
string, i.e. every second element of the reversed string starting one in
from its head. -/
def sumEvenDigits (cardNumber : List Char) : Int :=
  sumEvenAux (cardNumber.reverse.drop 1)

/-- The canonical Luhn transform of the digit at 0-based position `i` of
the right-to-left traversal: positions one in from the end, three in, ...
are doubled and reduced by 9 when the double exceeds 9 (spec, section
4.3). -/
def luhnDigit (i : Nat) (d : Nat) : Nat :=
  if i % 2 = 1 then (if 2 * d > 9 then 2 * d - 9 else 2 * d) else d

/-- The canonical Luhn checksum from the spec's words: enumerate the digits
from the rightmost to the leftmost, apply the transform at each position,
and sum. -/
def luhnSum (digits : List Nat) : Nat :=
  (digits.reverse.enum.map (fun p => luhnDigit p.1 p.2)).sum

/-- The canonical Luhn check from the spec's words: pass iff the checksum
is divisible by 10. -/
def luhnSpecPass (digits : List Nat) : Bool :=
  luhnSum digits % 10 == 0

/-! ### Helper lemmas -/

lemma char_toNat_inj {c d : Char} (h : c.toNat = d.toNat) : c = d := by
  have hc := Char.ofNat_toNat c
  rw [← hc, h, Char.ofNat_toNat]

lemma isDigit_toNat {c : Char} (h : c.isDigit = true) :
    48 ≤ c.toNat ∧ c.toNat ≤ 57 := by
  simp [Char.isDigit, Char.le_def, UInt32.le_def, BitVec.le_def] at h
  exact h

/-- On the length-reject path `validate_card` returns the record whose
analysis fields were never assigned. -/
lemma validate_card_reject (input : List Char)
    (h : (normalize_input input).length < 13 ∨ 19 < (normalize_input input).length) :
    validate_card input =
      { valid := false, luhn_pass := none, entropy := none,
        repetition_pass := none, issuer := none } := by
  simp only [validate_card]
  rw [if_pos h]

/-- When the length gate passes, `validate_card` returns the record built
from the four analysis stages, with the combiner's two-branch `valid`. -/
lemma validate_card_in_range (input : List Char)
    (h : ¬ ((normalize_input input).length < 13 ∨ 19 < (normalize_input input).length)) :
    validate_card input =
      { valid := if luhn_check (normalize_input input) = true ∧
                     calculate_entropy (normalize_input input) ≥ 3.5 ∧
                     repetition_check_optimized (normalize_input input) = true
                 then true
                 else if luhn_check (normalize_input input) = true then true else false,
        luhn_pass := some (luhn_check (normalize_input input)),
        entropy := some (calculate_entropy (normalize_input input)),
        repetition_pass := some (repetition_check_optimized (normalize_input input)),
        issuer := some (detect_issuer (normalize_input input)) } := by
  simp only [validate_card]
  rw [if_neg h]

lemma getDigit_single (d : Int) (h9 : d < 10) : getDigit d = d := by
  unfold getDigit
  rw [if_pos h9]

lemma luhn_double_eq_getDigit (d : Int) (h0 : 0 ≤ d) (h9 : d ≤ 9) :
    (if d * 2 > 9 then d * 2 - 9 else d * 2) = getDigit (d * 2) := by
  unfold getDigit
  split <;> split <;> omega

lemma sumOddAux_cons (c : Char) (rest : List Char) :
    sumOddAux (c :: rest) = getDigit ((c.toNat : Int) - 48) + sumOddAux (rest.drop 1) := by
  cases rest <;> simp [sumOddAux]

lemma sumEvenAux_cons (c : Char) (rest : List Char) :
    sumEvenAux (c :: rest) =
      getDigit (((c.toNat : Int) - 48) * 2) + sumEvenAux (rest.drop 1) := by
  cases rest <;> simp [sumEvenAux]

/-- The Luhn loop over an all-digit list splits into the `main.cpp` sums:
with the flag initially clear it is the odd-position sum of the list plus
the even-position sum one position in, and with the flag set the two swap
roles. -/
lemma luhn_loop_split (l : List Char) (hall : ∀ c ∈ l, c.isDigit = true) :
    ∀ acc : Int,
      luhn_loop l false acc = acc + sumOddAux l + sumEvenAux (l.drop 1) ∧
      luhn_loop l true acc = acc + sumEvenAux l + sumOddAux (l.drop 1) := by
  induction l with
  | nil => intro acc; simp [luhn_loop, sumOddAux, sumEvenAux]
  | cons c rest ih =>
    intro acc
    have hc := hall c (List.mem_cons_self c rest)
    obtain ⟨h48, h57⟩ := isDigit_toNat hc
    have hrest : ∀ x ∈ rest, x.isDigit = true := fun x hx =>
      hall x (List.mem_cons_of_mem c hx)
    have hd0 : (0 : Int) ≤ (c.toNat : Int) - 48 := by omega
    have hd9 : (c.toNat : Int) - 48 ≤ 9 := by omega
    constructor
    · show luhn_loop rest true (acc + ((c.toNat : Int) - 48)) = _
      rw [(ih hrest (acc + ((c.toNat : Int) - 48))).2, sumOddAux_cons]
      rw [getDigit_single _ (by omega)]
      simp only [List.drop_succ_cons, List.drop_zero]
      ring
    · show luhn_loop rest false
        (acc + (if ((c.toNat : Int) - 48) * 2 > 9
                then ((c.toNat : Int) - 48) * 2 - 9
                else ((c.toNat : Int) - 48) * 2)) = _
      rw [(ih hrest _).1, sumEvenAux_cons, luhn_double_eq_getDigit _ hd0 hd9]
      simp only [List.drop_succ_cons, List.drop_zero]
      ring

/-- The Luhn loop over an all-digit list computes the canonical
position-indexed Luhn sum: the flag holds exactly when the position index
is odd. -/
lemma luhn_loop_enum :
    ∀ (l : List Char) (n : Nat) (acc : Int) (b : Bool),
      (b = true ↔ n % 2 = 1) → (∀ c ∈ l, c.isDigit = true) →
      luhn_loop l b acc =
        acc + (((List.enumFrom n (l.map (fun c => c.toNat - 48))).map
          (fun p => luhnDigit p.1 p.2)).sum : ℤ) := by
  intro l
  induction l with
  | nil => intro n acc b _ _; simp [luhn_loop]
  | cons c rest ih =>
    intro n acc b hb hall
    have hc := hall c (List.mem_cons_self c rest)
    obtain ⟨h48, h57⟩ := isDigit_toNat hc
    have hrest : ∀ x ∈ rest, x.isDigit = true := fun x hx =>
      hall x (List.mem_cons_of_mem c hx)
    simp only [List.map_cons, List.enumFrom_cons, List.sum_cons]
    cases b with
    | false =>
      have hpar : ¬ n % 2 = 1 := fun h => absurd (hb.mpr h) (by simp)
      have hb2 : (true = true ↔ (n + 1) % 2 = 1) := by
        constructor
        · intro _; omega
        · intro _; rfl
      show luhn_loop rest true (acc + ((c.toNat : Int) - 48)) = _
      rw [ih (n + 1) _ true hb2 hrest]
      unfold luhnDigit
      rw [if_neg hpar]
      push_cast
      omega
    | true =>
      have hpar : n % 2 = 1 := hb.mp rfl
      have hb2 : (false = true ↔ (n + 1) % 2 = 1) := by
        constructor
        · intro h; exact absurd h (by simp)
        · intro _; exfalso; omega
      show luhn_loop rest false
        (acc + (if ((c.toNat : Int) - 48) * 2 > 9
                then ((c.toNat : Int) - 48) * 2 - 9
                else ((c.toNat : Int) - 48) * 2)) = _
      rw [ih (n + 1) _ false hb2 hrest]
      unfold luhnDigit
      rw [if_pos hpar]
      by_cases hgt : 2 * (c.toNat - 48) > 9
      · rw [if_pos hgt, if_pos (show ((c.toNat : Int) - 48) * 2 > 9 by omega)]
        push_cast
        omega
      · rw [if_neg hgt, if_neg (show ¬ ((c.toNat : Int) - 48) * 2 > 9 by omega)]
        push_cast
        omega

lemma dedup_toFinset (s : List Char) : s.dedup.toFinset = s.toFinset := by
  ext c
  simp [List.mem_toFinset, List.mem_dedup]

/-- The entropy loop's list sum, reindexed as a sum over the finite set of
characters that occur in the string. -/
lemma calculate_entropy_eq (s : List Char) :
    calculate_entropy s = ∑ c ∈ s.toFinset, entropyTerm s c := by
  unfold calculate_entropy
  rw [← dedup_toFinset, List.sum_toFinset _ (List.nodup_dedup s)]

/-- Gibbs' inequality: a finite positive probability distribution has
natural-log entropy at most the log of the support's size. -/
lemma gibbs_bound (F : Finset Char) (w : Char → ℝ)
    (hpos : ∀ c ∈ F, 0 < w c) (hsum : ∑ c ∈ F, w c = 1) :
    ∑ c ∈ F, (-(w c)) * Real.log (w c) ≤ Real.log (F.card : ℝ) := by
  have hne : F.Nonempty := by
    rcases F.eq_empty_or_nonempty with h | h
    · exfalso
      rw [h] at hsum
      simp at hsum
    · exact h
  have hk : (0 : ℝ) < (F.card : ℝ) := by
    exact_mod_cast Finset.card_pos.mpr hne
  have key : ∀ c ∈ F, (-(w c)) * Real.log (w c) ≤
      1 / (F.card : ℝ) - w c + w c * Real.log (F.card : ℝ) := by
    intro c hc
    have hw := hpos c hc
    have hx : (0 : ℝ) < 1 / ((F.card : ℝ) * w c) := by positivity
    have hlog := Real.log_le_sub_one_of_pos hx
    have hlogeq : Real.log (1 / ((F.card : ℝ) * w c)) =
        -(Real.log (F.card : ℝ) + Real.log (w c)) := by
      rw [one_div, Real.log_inv, Real.log_mul (ne_of_gt hk) (ne_of_gt hw)]
    rw [hlogeq] at hlog
    have hmul := mul_le_mul_of_nonneg_left hlog (le_of_lt hw)
    have hrw : w c * (1 / ((F.card : ℝ) * w c) - 1) = 1 / (F.card : ℝ) - w c := by
      field_simp
      ring
    nlinarith [hmul, hrw]
  have hstep := Finset.sum_le_sum key
  have hsplit : ∑ c ∈ F, (1 / (F.card : ℝ) - w c + w c * Real.log (F.card : ℝ)) =
      (F.card : ℝ) * (1 / (F.card : ℝ)) - 1 + Real.log (F.card : ℝ) := by
    rw [Finset.sum_add_distrib, Finset.sum_sub_distrib, Finset.sum_const,
      ← Finset.sum_mul, hsum, nsmul_eq_mul, one_mul]
  rw [hsplit] at hstep
  have hcard : (F.card : ℝ) * (1 / (F.card : ℝ)) = 1 := by
    field_simp
  rw [hcard] at hstep
  linarith

/-- The entropy of a non-empty string is at most log2 of the number of
distinct characters it uses. -/
lemma entropy_le_logb_card (s : List Char) (hne : s ≠ []) :
    calculate_entropy s ≤ Real.logb 2 (s.toFinset.card : ℝ) := by
  have hlen : 0 < s.length := List.length_pos.mpr hne
  have hL : (0 : ℝ) < (s.length : ℝ) := by exact_mod_cast hlen
  have hlog2 : (0 : ℝ) < Real.log 2 := Real.log_pos (by norm_num)
  have hpos : ∀ c ∈ s.toFinset, 0 < (s.count c : ℝ) / (s.length : ℝ) := by
    intro c hc
    apply div_pos _ hL
    exact_mod_cast List.count_pos_iff.mpr (List.mem_toFinset.mp hc)
  have hsum : ∑ c ∈ s.toFinset, (s.count c : ℝ) / (s.length : ℝ) = 1 := by
    rw [← Finset.sum_div]
    rw [show ∑ c ∈ s.toFinset, (s.count c : ℝ) = ((∑ c ∈ s.toFinset, s.count c : ℕ) : ℝ) by
      push_cast
      rfl]
    rw [List.sum_toFinset_count_eq_length]
    exact div_self (ne_of_gt hL)
  have hconv : calculate_entropy s =
      (∑ c ∈ s.toFinset,
        (-((s.count c : ℝ) / (s.length : ℝ))) *
          Real.log ((s.count c : ℝ) / (s.length : ℝ))) / Real.log 2 := by
    rw [calculate_entropy_eq, Finset.sum_div]
    apply Finset.sum_congr rfl
    intro c _
    unfold entropyTerm Real.logb
    ring
  have hgibbs := gibbs_bound s.toFinset
    (fun c => (s.count c : ℝ) / (s.length : ℝ)) hpos hsum
  rw [hconv]
  unfold Real.logb
  exact (div_le_div_iff_of_pos_right hlog2).mpr hgibbs

/-- An all-digit string uses at most the 10 decimal digit characters. -/
lemma digit_card_le_ten (s : List Char) (hd : s.all Char.isDigit = true) :
    s.toFinset.card ≤ 10 := by
  have hsub : ∀ c ∈ s.toFinset, c.toNat ∈ Finset.Icc 48 57 := by
    intro c hc
    have := isDigit_toNat (List.all_eq_true.mp hd c (List.mem_toFinset.mp hc))
    rw [Finset.mem_Icc]
    exact this
  have hinj : (↑s.toFinset : Set Char).InjOn Char.toNat := by
    intro a _ b _ h
    exact char_toNat_inj h
  have := Finset.card_le_card_of_injOn Char.toNat hsub hinj
  simpa [Nat.card_Icc] using this

/-- log2 of 10 is below the fixed 3.5 entropy threshold, because
100 < 128. -/
lemma logb_two_ten_lt : Real.logb 2 10 < 3.5 := by
  have h100 : Real.logb 2 100 = 2 * Real.logb 2 10 := by
    rw [show (100 : ℝ) = 10 ^ 2 by norm_num, Real.logb_pow]
    norm_num
  have h128 : Real.logb 2 128 = 7 := by
    rw [show (128 : ℝ) = 2 ^ 7 by norm_num, Real.logb_pow,
      Real.logb_self_eq_one (by norm_num)]
    norm_num
  have hlt : Real.logb 2 100 < Real.logb 2 128 :=
    Real.logb_lt_logb (by norm_num) (by norm_num) (by norm_num)
  rw [h100, h128] at hlt
  linarith

/-! ### Claims -/

/-- C1: for inputs whose normalized digit sequence has length 13..19, the
boolean verdict equals the Luhn signal — `valid = true` iff
`luhn_pass = true`; the entropy and repetition signals only select between
the full-confidence and low-confidence branches, which both set
`valid = luhn_pass`. -/
theorem validate_card_valid_iff_luhn (input : List Char)
    (h13 : 13 ≤ (normalize_input input).length)
    (h19 : (normalize_input input).length ≤ 19) :
    (validate_card input).valid = luhn_check (normalize_input input) ∧
      ((validate_card input).valid = true ↔
        (validate_card input).luhn_pass = some true) := by
  have h : ¬ ((normalize_input input).length < 13 ∨ 19 < (normalize_input input).length) := by
    omega
  rw [validate_card_in_range input h]
  constructor
  · cases hl : luhn_check (normalize_input input)
    · simp [hl]
    · simp [hl]
  · cases hl : luhn_check (normalize_input input)
    · simp [hl]
    · simp [hl]

theorem validate_card_valid_iff_luhn_witness :
    (validate_card ("4532015112830366".toList)).valid =
        luhn_check (normalize_input ("4532015112830366".toList)) ∧
      ((validate_card ("4532015112830366".toList)).valid = true ↔
        (validate_card ("4532015112830366".toList)).luhn_pass = some true) :=
  validate_card_valid_iff_luhn _ (by decide) (by decide)

/-- C2: when the normalized sequence's length is outside 13..19,
`validate_card` returns `valid = false` with every analysis field still
unset — the pipeline short-circuits before the issuer, Luhn, entropy and
repetition stages run. -/
theorem validate_card_length_gate (input : List Char)
    (h : (normalize_input input).length < 13 ∨ 19 < (normalize_input input).length) :
    validate_card input =
      { valid := false, luhn_pass := none, entropy := none,
        repetition_pass := none, issuer := none } :=
  validate_card_reject input h

theorem validate_card_length_gate_witness :
    validate_card ("123".toList) =
      { valid := false, luhn_pass := none, entropy := none,
        repetition_pass := none, issuer := none } :=
  validate_card_length_gate _ (by decide)

/-- C3: on every non-empty all-digit string, `luhn_check` passes exactly
when the canonical right-to-left Luhn mod-10 checksum — every second digit
starting one in from the end doubled, doubles above 9 reduced by 9, all
summed — is divisible by 10; the two spec fixtures evaluate as stated. -/
theorem luhn_check_canonical (s : List Char) (hne : s ≠ [])
    (hd : s.all Char.isDigit = true) :
    (luhn_check s = true ↔
      luhnSpecPass (s.map (fun c => c.toNat - 48)) = true) ∧
    luhn_check ("4532015112830366".toList) = true ∧
    luhn_check ("4532015112830367".toList) = false := by
  refine ⟨?_, by decide, by decide⟩
  have hall : ∀ c ∈ s.reverse, c.isDigit = true := by
    intro c hc
    rw [List.mem_reverse] at hc
    exact List.all_eq_true.mp hd c hc
  have hb : ((false : Bool) = true ↔ 0 % 2 = 1) := by simp
  unfold luhn_check luhnSpecPass luhnSum
  rw [luhn_loop_enum s.reverse 0 0 false hb hall]
  rw [← List.map_reverse, List.enum]
  simp only [zero_add, beq_iff_eq]
  omega

theorem luhn_check_canonical_witness :
    (luhn_check ("4532015112830366".toList) = true ↔
      luhnSpecPass (("4532015112830366".toList).map
        (fun c => c.toNat - 48)) = true) ∧
    luhn_check ("4532015112830366".toList) = true ∧
    luhn_check ("4532015112830367".toList) = false :=
  luhn_check_canonical _ (by decide) (by decide)

/-- C4: the repetition scanner returns false exactly when two adjacent
equal windows of the same length exist, with the length between 1 and half
the string, and true otherwise; the three spec fixtures evaluate as
stated. -/
theorem repetition_check_spec :
    (∀ s : List Char,
      (repetition_check_optimized s = false ↔
        ∃ len, 1 ≤ len ∧ len ≤ s.length / 2 ∧
          ∃ i, i + 2 * len ≤ s.length ∧
            (s.drop i).take len = (s.drop (i + len)).take len)) ∧
    repetition_check_optimized ("1212121212121".toList) = false ∧
    repetition_check_optimized ("4444444444444".toList) = false ∧
    repetition_check_optimized ("1234567890123".toList) = true := by
  refine ⟨?_, by decide, by decide, by decide⟩
  intro s
  rw [← Bool.not_eq_true]
  simp only [repetition_check_optimized, List.all_eq_true, List.mem_range,
    Bool.not_eq_true', beq_eq_false_iff_ne, ne_eq, not_forall, not_not]
  constructor
  · rintro ⟨l, hl, i, hi, heq⟩
    exact ⟨l + 1, by omega, by omega, i, by omega, heq⟩
  · rintro ⟨len, h1, h2, i, h3, heq⟩
    obtain ⟨l, rfl⟩ : ∃ l, len = l + 1 := ⟨len - 1, by omega⟩
    exact ⟨l, by omega, i, by omega, heq⟩

/-- C5: on every all-digit string the entropy is at most log2 of 10, which
is below the fixed 3.5 threshold, so the entropy signal can never pass and
the full-confidence branch of the combiner is unreachable on pure-decimal
input. -/
theorem entropy_below_threshold (s : List Char)
    (hd : s.all Char.isDigit = true) :
    calculate_entropy s ≤ Real.logb 2 10 ∧
    Real.logb 2 10 < 3.5 ∧
    ¬ (calculate_entropy s ≥ 3.5) ∧
    ¬ (luhn_check s = true ∧ calculate_entropy s ≥ 3.5 ∧
        repetition_check_optimized s = true) := by
  have hmax : calculate_entropy s ≤ Real.logb 2 10 := by
    rcases List.eq_nil_or_concat s with rfl | hne0
    · rw [show calculate_entropy [] = 0 from rfl]
      exact Real.logb_nonneg (by norm_num) (by norm_num)
    · have hne : s ≠ [] := by
        rcases hne0 with ⟨l, a, rfl⟩
        simp
      have hcard := digit_card_le_ten s hd
      have hpos : 0 < s.toFinset.card := by
        rw [Finset.card_pos]
        rcases List.exists_mem_of_ne_nil s hne with ⟨c, hc⟩
        exact ⟨c, List.mem_toFinset.mpr hc⟩
      calc calculate_entropy s ≤ Real.logb 2 (s.toFinset.card : ℝ) :=
            entropy_le_logb_card s hne
        _ ≤ Real.logb 2 10 := by
            apply Real.logb_le_logb_of_le (by norm_num)
            · exact_mod_cast hpos
            · exact_mod_cast hcard
  refine ⟨hmax, logb_two_ten_lt, ?_, ?_⟩
  · intro hge
    have := lt_of_lt_of_le (lt_of_le_of_lt hmax logb_two_ten_lt) hge
    exact lt_irrefl _ this
  · rintro ⟨_, hge, _⟩
    have := lt_of_lt_of_le (lt_of_le_of_lt hmax logb_two_ten_lt) hge
    exact lt_irrefl _ this

theorem entropy_below_threshold_witness :
    calculate_entropy ("1234567890123".toList) ≤ Real.logb 2 10 ∧
    Real.logb 2 10 < 3.5 ∧
    ¬ (calculate_entropy ("1234567890123".toList) ≥ 3.5) ∧
    ¬ (luhn_check ("1234567890123".toList) = true ∧
        calculate_entropy ("1234567890123".toList) ≥ 3.5 ∧
        repetition_check_optimized ("1234567890123".toList) = true) :=
  entropy_below_threshold _ (by decide)

/-- C6: at the length-rejected input "12" the pipeline returns with only
`valid` assigned; `luhn_pass`, `entropy` and `repetition_pass` are never
written on this path.  In the C++ struct those three members are therefore
left uninitialized (only `issuer`, a `std::string`, default-constructs),
so the returned record does not carry the well-defined values the
bit-identical-results property demands there. -/
theorem validate_card_reject_fields_unassigned :
    (validate_card ("12".toList)).valid = false ∧
    (validate_card ("12".toList)).luhn_pass = none ∧
    (validate_card ("12".toList)).entropy = none ∧
    (validate_card ("12".toList)).repetition_pass = none := by
  rw [validate_card_reject _ (by decide)]
  exact ⟨rfl, rfl, rfl, rfl⟩

/-- C7: any input with a non-digit character (spaces and dashes included)
is rejected whole — `normalize_input` returns the fixed 26-character
message, whose length falls outside 13..19, so `validate_card` takes the
length-reject path and returns a well-formed result with `valid = false`. -/
theorem nondigit_input_rejected (input : List Char)
    (h : ∃ c ∈ input, c.isDigit = false) :
    normalize_input input = invalidMessage ∧
    invalidMessage.length = 26 ∧
    ¬ (13 ≤ invalidMessage.length ∧ invalidMessage.length ≤ 19) ∧
    validate_card input =
      { valid := false, luhn_pass := none, entropy := none,
        repetition_pass := none, issuer := none } ∧
    (validate_card input).valid = false := by
  have hall : ¬ input.all Char.isDigit = true := by
    simp only [List.all_eq_true]
    push_neg
    obtain ⟨c, hc, hd⟩ := h
    exact ⟨c, hc, by simp [hd]⟩
  have hn : normalize_input input = invalidMessage := by
    unfold normalize_input
    rw [if_neg hall]
  have hrej : validate_card input =
      { valid := false, luhn_pass := none, entropy := none,
        repetition_pass := none, issuer := none } := by
    apply validate_card_reject
    rw [hn]
    right
    decide
  exact ⟨hn, by decide, by decide, hrej, by rw [hrej]⟩

theorem nondigit_input_rejected_witness :
    normalize_input ("4532-0151 1283".toList) = invalidMessage ∧
    invalidMessage.length = 26 ∧
    ¬ (13 ≤ invalidMessage.length ∧ invalidMessage.length ≤ 19) ∧
    validate_card ("4532-0151 1283".toList) =
      { valid := false, luhn_pass := none, entropy := none,
        repetition_pass := none, issuer := none } ∧
    (validate_card ("4532-0151 1283".toList)).valid = false :=
  nondigit_input_rejected _ (by decide)

/-- C8: on every digit string of length at least 1, `calculate_entropy` is
the Shannon entropy of the digit-frequency distribution — the sum of
`-(v/L) * log2 (v/L)` over exactly the symbols that occur, so the log of
zero is never taken — and on the 13-character single-symbol string it is
exactly 0. -/
theorem calculate_entropy_shannon :
    (∀ s : List Char, 1 ≤ s.length →
      calculate_entropy s = ∑ c ∈ s.toFinset,
        (-((s.count c : ℝ) / (s.length : ℝ))) *
          Real.logb 2 ((s.count c : ℝ) / (s.length : ℝ))) ∧
    calculate_entropy ("1111111111111".toList) = 0 := by
  constructor
  · intro s _
    rw [calculate_entropy_eq]
    rfl
  · rw [calculate_entropy_eq]
    rw [show ("1111111111111".toList).toFinset = {'1'} from by decide]
    rw [Finset.sum_singleton]
    unfold entropyTerm
    rw [show ("1111111111111".toList).count '1' = 13 from by decide]
    rw [show ("1111111111111".toList).length = 13 from by decide]
    norm_num

/-- C9: `detect_issuer` looks only at the first character — VISA for `4`,
MASTERCARD for `5`, UNKNOWN for anything else and for the empty string —
its result is always one of these three labels, and the three spec
fixtures evaluate as stated. -/
theorem detect_issuer_cases :
    (∀ s : List Char,
      detect_issuer s =
        (match s with
         | [] => "UNKNOWN"
         | c :: _ =>
           if c = '4' then "VISA"
           else if c = '5' then "MASTERCARD"
           else "UNKNOWN")) ∧
    (∀ s : List Char,
      detect_issuer s = "VISA" ∨ detect_issuer s = "MASTERCARD" ∨
        detect_issuer s = "UNKNOWN") ∧
    detect_issuer ("4111111111111111".toList) = "VISA" ∧
    detect_issuer ("5500000000000004".toList) = "MASTERCARD" ∧
    detect_issuer ("1234567890123".toList) = "UNKNOWN" := by
  have main : ∀ s : List Char,
      detect_issuer s =
        (match s with
         | [] => "UNKNOWN"
         | c :: _ =>
           if c = '4' then "VISA"
           else if c = '5' then "MASTERCARD"
           else "UNKNOWN") := by
    intro s
    match s with
    | [] => rfl
    | c :: rest =>
      show issuerTable c.toNat =
        (if c = '4' then "VISA"
         else if c = '5' then "MASTERCARD"
         else "UNKNOWN")
      unfold issuerTable
      by_cases h4 : c = '4'
      · subst h4; rw [if_pos rfl, if_pos rfl]
      · have h4n : ¬ c.toNat = Char.toNat '4' := fun hh => h4 (char_toNat_inj hh)
        rw [if_neg h4n, if_neg h4]
        by_cases h5 : c = '5'
        · subst h5; rw [if_pos rfl, if_pos rfl]
        · have h5n : ¬ c.toNat = Char.toNat '5' := fun hh => h5 (char_toNat_inj hh)
          rw [if_neg h5n, if_neg h5]
  refine ⟨main, ?_, by decide, by decide, by decide⟩
  intro s
  rw [main s]
  match s with
  | [] => simp
  | c :: rest =>
    by_cases h4 : c = '4' <;> by_cases h5 : c = '5' <;> simp [h4, h5]

/-- C10: on every non-empty all-digit string the two independent Luhn
implementations of the repository agree — `luhn_check` of `validator.cpp`
passes exactly when the `main.cpp` sum
`sumEvenDigits + sumOddDigits` is divisible by 10. -/
theorem luhn_check_agrees_main (s : List Char) (hne : s ≠ [])
    (hd : s.all Char.isDigit = true) :
    luhn_check s = true ↔ (sumEvenDigits s + sumOddDigits s) % 10 = 0 := by
  have hall : ∀ c ∈ s.reverse, c.isDigit = true := by
    intro c hc
    rw [List.mem_reverse] at hc
    exact List.all_eq_true.mp hd c hc
  unfold luhn_check sumOddDigits sumEvenDigits
  rw [(luhn_loop_split s.reverse hall 0).1]
  simp only [zero_add, beq_iff_eq]
  constructor
  · intro h; rw [Int.add_comm]; exact h
  · intro h; rw [Int.add_comm]; exact h

theorem luhn_check_agrees_main_witness :
    luhn_check ("4532015112830366".toList) = true ↔
      (sumEvenDigits ("4532015112830366".toList) +
        sumOddDigits ("4532015112830366".toList)) % 10 = 0 :=
  luhn_check_agrees_main _ (by decide) (by decide)

end CardGuard
